import Mathlib

/-
Verification of the SYK-simulation core: a shallow embedding of the
Pauli mask algebra (`jw_transform/hamiltonian.py`), the Hamiltonian
builder (`SYK_hamil`), the PPR circuit synthesizer (`ppr/ppr.py`),
the Trotter schedulers (`trotter/trotter.py`) and the Pauli-string
codec (`ppr_utils.py`), together with proofs of the specified
properties.
-/

namespace SykSim

/-- A Pauli operator encoded as a pair of bitmasks: bit i of `x` set
means qubit i carries an X factor, bit i of `z` set means a Z factor,
both set means a Y factor.  Mirrors `PauliMask(x_mask, z_mask)`. -/
structure PauliMask where
  x : ℕ
  z : ℕ
deriving DecidableEq, Repr

/-- Modelled from the spec: the `PauliMask` product used by the
Hamiltonian builder (`pauli_op1[1]*pauli_op2[1]`, from the external
`workbench_algorithms` library, not under this repository's sources):
"the combined mask is the Pauli-operator product of the two pair masks
(x = x1 XOR x2, z = z1 XOR z2)". -/
def pmMul (a b : PauliMask) : PauliMask :=
  ⟨a.x ^^^ b.x, a.z ^^^ b.z⟩

/-- Gaussian integers `(re, im)`: the exact complex values `1j`, `-1j`
and their products that appear as phases in the Jordan-Wigner pair
operators. -/
def gaussMul (a b : ℤ × ℤ) : ℤ × ℤ :=
  (a.1 * b.1 - a.2 * b.2, a.1 * b.2 + a.2 * b.1)

/-- Negation of a phase, for stating antisymmetry. -/
def gaussNeg (a : ℤ × ℤ) : ℤ × ℤ := (-a.1, -a.2)

/-- The phase `+1j`. -/
def gaussI : ℤ × ℤ := (0, 1)

/-- The phase `-1j`. -/
def gaussNegI : ℤ × ℤ := (0, -1)

/-- `sum(2**i for i in range(a, b))`: the Jordan-Wigner Z string
between two endpoints. -/
def sumPow (a b : ℕ) : ℕ :=
  ((List.range' a (b - a)).map (fun i => 2 ^ i)).sum

/-- Embedding of `SYK_pair_to_mask(p, q)`
(`jw_transform/hamiltonian.py`): the phase and Pauli mask of the
product of Majorana fermions `p` and `q`.  For natural `p`, Python's
`floor(p/2)` is `p / 2` and `p%2` is `p % 2`. -/
def SYK_pair_to_mask (p q : ℕ) : (ℤ × ℤ) × PauliMask :=
  if q > p then
    if q / 2 = p / 2 then ((0, 1), ⟨0, 2 ^ (q / 2)⟩)
    else
      let x_mask := 2 ^ (p / 2) + 2 ^ (q / 2)
      let z_mask := sumPow (p / 2 + 1) (q / 2)
      let z_mask := if q % 2 = 1 then z_mask + 2 ^ (q / 2) else z_mask
      if p % 2 = 0 then ((0, -1), ⟨x_mask, z_mask + 2 ^ (p / 2)⟩)
      else ((0, 1), ⟨x_mask, z_mask⟩)
  else
    if q / 2 = p / 2 then ((0, -1), ⟨0, 2 ^ (q / 2)⟩)
    else
      let x_mask := 2 ^ (q / 2) + 2 ^ (p / 2)
      let z_mask := sumPow (q / 2 + 1) (p / 2)
      let z_mask := if p % 2 = 1 then z_mask + 2 ^ (p / 2) else z_mask
      if q % 2 = 0 then ((0, 1), ⟨x_mask, z_mask + 2 ^ (q / 2)⟩)
      else ((0, -1), ⟨x_mask, z_mask⟩)

end SykSim

namespace SykSim

/-- C1: for every pair of distinct Majorana indices p ≠ q,
`SYK_pair_to_mask` applied to (p,q) and to (q,p) returns the same
x_mask and z_mask, and phases that are exact negations of each
other. -/
theorem pair_to_mask_antisymmetric (p q : ℕ) (h : p ≠ q) :
    (SYK_pair_to_mask p q).2 = (SYK_pair_to_mask q p).2 ∧
    (SYK_pair_to_mask p q).1 = gaussNeg (SYK_pair_to_mask q p).1 := by
  have key : ∀ a b : ℕ, a < b →
      (SYK_pair_to_mask a b).2 = (SYK_pair_to_mask b a).2 ∧
      (SYK_pair_to_mask a b).1 = gaussNeg (SYK_pair_to_mask b a).1 := by
    intro a b hab
    have h1 : ¬ a > b := by omega
    by_cases hs : b / 2 = a / 2
    · simp [SYK_pair_to_mask, hab, h1, hs, gaussNeg]
    · have hs2 : ¬ a / 2 = b / 2 := fun hh => hs hh.symm
      rcases Nat.mod_two_eq_zero_or_one a with ha | ha <;>
        rcases Nat.mod_two_eq_zero_or_one b with hb | hb <;>
          simp [SYK_pair_to_mask, hab, h1, hs, hs2, ha, hb, gaussNeg]
  rcases lt_or_gt_of_ne h with hpq | hpq
  · exact key p q hpq
  · obtain ⟨hm, hph⟩ := key q p hpq
    refine ⟨hm.symm, ?_⟩
    rw [hph]
    simp [gaussNeg]

/-- Witness for C1 at the concrete pair (0, 1). -/
theorem pair_to_mask_antisymmetric_witness :
    (SYK_pair_to_mask 0 1).2 = (SYK_pair_to_mask 1 0).2 ∧
    (SYK_pair_to_mask 0 1).1 = gaussNeg (SYK_pair_to_mask 1 0).1 :=
  pair_to_mask_antisymmetric 0 1 (by decide)

/-- C5: for every pair p ≠ q with p//2 == q//2, `SYK_pair_to_mask`
returns x_mask = 0 and z_mask = bit(q//2), with phase +i when q > p
and -i when q < p; in particular (0,1) gives (+i, x=0, z=1) and (1,0)
gives (-i, x=0, z=1). -/
theorem pair_to_mask_same_qubit (p q : ℕ) (h : p ≠ q) (hs : p / 2 = q / 2) :
    SYK_pair_to_mask p q =
      ((if p < q then gaussI else gaussNegI), ⟨0, 2 ^ (q / 2)⟩) ∧
    SYK_pair_to_mask 0 1 = (gaussI, ⟨0, 1⟩) ∧
    SYK_pair_to_mask 1 0 = (gaussNegI, ⟨0, 1⟩) := by
  refine ⟨?_, by decide, by decide⟩
  rcases lt_or_gt_of_ne h with hpq | hpq
  · simp [SYK_pair_to_mask, hpq, hs.symm, gaussI]
  · have h1 : ¬ p < q := by omega
    have h2 : ¬ q > p := by omega
    simp [SYK_pair_to_mask, h1, h2, hpq, hs.symm, gaussNegI]

/-- Witness for C5 at the concrete pair (1, 0). -/
theorem pair_to_mask_same_qubit_witness :
    SYK_pair_to_mask 1 0 =
      ((if 1 < 0 then gaussI else gaussNegI), ⟨0, 2 ^ (0 / 2)⟩) ∧
    SYK_pair_to_mask 0 1 = (gaussI, ⟨0, 1⟩) ∧
    SYK_pair_to_mask 1 0 = (gaussNegI, ⟨0, 1⟩) :=
  pair_to_mask_same_qubit 1 0 (by decide) (by decide)

/-! ### PPR synthesizer (`ppr/ppr.py`, `PPR._compute`) -/

/-- The three angle shapes accepted by `PPR._compute`:
a unit-tagged quantity (`hasattr(theta, "to")`, magnitude in radians),
an integer fraction-of-π pair (`tuple`), and a plain number. -/
inductive Theta where
  | tagged (rad : ℝ)
  | frac (num den : ℤ)
  | raw (x : ℝ)

/-- `np.rad2deg`: radians to degrees. -/
noncomputable def rad2deg (x : ℝ) : ℝ := x * (180 / Real.pi)

/-- The angle-standardization block of `PPR._compute` (ppr.py lines
10-21), producing the internal degree value `angle_deg`.  A
unit-tagged value is converted by `theta.to("deg").mag`, modelled here
by `rad2deg` of its radian magnitude; a tuple `(a, b)` by
`np.rad2deg(np.pi * a / b)`; a raw number is taken as degrees when its
magnitude exceeds 2π and as radians otherwise. -/
noncomputable def standardizeAngle : Theta → ℝ
  | .tagged r => rad2deg r
  | .frac a b => rad2deg (Real.pi * a / b)
  | .raw x => if 2 * Real.pi < |x| then x else rad2deg x

/-- The rotation, in radians, that an angle input denotes: a tagged
value and a fraction-of-π pair carry their unit explicitly, and a
plain number is read as radians (the spec's Angle shapes must be
"normalized to one canonical radian value"). -/
noncomputable def thetaDenotesRad : Theta → ℝ
  | .tagged r => r
  | .frac a b => Real.pi * a / b
  | .raw x => x

/-- The raw-number heuristic classifies a plain number correctly as
radians only when its magnitude is at most 2π. -/
def thetaRawBounded : Theta → Prop
  | .raw x => |x| ≤ 2 * Real.pi
  | _ => True

/-- One abstract gate operation issued against the external register:
S-inverse, S and Hadamard on a bitmask-selected set of qubits, a CNOT
with one control and one target, and a single-qubit Z rotation by an
angle in degrees. -/
inductive Gate where
  | sInv (mask : ℕ)
  | s (mask : ℕ)
  | had (mask : ℕ)
  | cnot (ctrl tgt : ℕ)
  | rz (tgt : ℕ) (deg : ℝ)

/-- Repeated halving with enough fuel: `bitLenAux fuel n` is the bit
count of `n` whenever `fuel ≥ n`. -/
def bitLenAux : ℕ → ℕ → ℕ
  | 0, _ => 0
  | fuel + 1, n => if n = 0 then 0 else bitLenAux fuel (n / 2) + 1

/-- Python's `int.bit_length`: the number of bits needed to represent
`n`, i.e. the position of the highest set bit plus one. -/
def bit_length (n : ℕ) : ℕ := bitLenAux n n

/-- The set-bit indices of a mask in ascending order: the order in
which the `while temp_mask:` loop of `PPR._compute` peels off the
least-significant set bit (`lsb = temp_mask & -temp_mask`). -/
def maskBits (m : ℕ) : List ℕ :=
  (List.range (bit_length m)).filter (fun i => m.testBit i)

/-- Embedding of `PPR._compute(qubits, theta, x_mask, z_mask)` as the
ordered trace of gate operations it issues against the register.
An empty trace means the register is never touched. -/
noncomputable def pprCompute (theta : Theta) (x_mask z_mask : ℕ) : List Gate :=
  let qubits_in_masks := x_mask ||| z_mask
  if qubits_in_masks = 0 then []
  else
    let angle_deg := standardizeAngle theta
    let y_mask := x_mask &&& z_mask
    let target := bit_length qubits_in_masks - 1
    -- `qubits_in_masks & ~(1 << target)`: bit `target` is set, so
    -- clearing it is XOR with `1 <<< target`.
    let controls_mask := qubits_in_masks ^^^ (1 <<< target)
    let controls := maskBits controls_mask
    (if y_mask ≠ 0 then [Gate.sInv y_mask] else []) ++
    (if x_mask ≠ 0 then [Gate.had x_mask] else []) ++
    (controls.map fun c => Gate.cnot c target) ++
    [Gate.rz target (2 * angle_deg)] ++
    (controls.reverse.map fun c => Gate.cnot c target) ++
    (if x_mask ≠ 0 then [Gate.had x_mask] else []) ++
    (if y_mask ≠ 0 then [Gate.s y_mask] else [])

/-- C2: on x_mask=0b11, z_mask=0b00, θ=90° the synthesized sequence is
exactly Hadamard on qubits 0 and 1 (one call on mask 0b11), CNOT with
control 0 and target 1, Z-rotation on qubit 1 by 180°, CNOT with
control 0 and target 1, Hadamard on qubits 0 and 1, in that order. -/
theorem ppr_scenario_A :
    pprCompute (Theta.raw 90) 3 0 =
      [Gate.had 3, Gate.cnot 0 1, Gate.rz 1 180, Gate.cnot 0 1, Gate.had 3] := by
  have hpi : 2 * Real.pi < |(90:ℝ)| := by
    rw [abs_of_pos (by norm_num : (0:ℝ) < 90)]
    nlinarith [Real.pi_lt_d2]
  have hstd : standardizeAngle (Theta.raw 90) = 90 := by
    rw [standardizeAngle, if_pos hpi]
  have hmb : maskBits 1 = [0] := by decide
  have htl : bit_length 3 = 2 := by decide
  have hxr : (3:ℕ) ^^^ 1 <<< 1 = 1 := by decide
  simp only [pprCompute, hstd]
  norm_num [hmb, htl, hxr]

/-- C4 counterexample: a plain number 7 and a unit-tagged 7-radian
value denote the same physical rotation, yet the synthesizer emits
different rotation gates for them (the heuristic reads 7 > 2π as
degrees); moreover the canonical value is a degree value, not a radian
value: the fraction-of-π input (1,1), denoting π radians, normalizes
to 180, not π. -/
theorem angle_heuristic_counterexample :
    thetaDenotesRad (Theta.raw 7) = thetaDenotesRad (Theta.tagged 7) ∧
    pprCompute (Theta.raw 7) 1 0 ≠ pprCompute (Theta.tagged 7) 1 0 ∧
    standardizeAngle (Theta.frac 1 1) = 180 ∧
    thetaDenotesRad (Theta.frac 1 1) ≠ 180 := by
  have hpi0 : 0 < Real.pi := Real.pi_pos
  have hpi4 : Real.pi < 3.15 := Real.pi_lt_d2
  have h7 : 2 * Real.pi < |(7:ℝ)| := by
    rw [abs_of_pos (by norm_num : (0:ℝ) < 7)]
    nlinarith
  have hstdr : standardizeAngle (Theta.raw 7) = 7 := by
    rw [standardizeAngle, if_pos h7]
  have hstdt : standardizeAngle (Theta.tagged 7) = 7 * (180 / Real.pi) := rfl
  refine ⟨rfl, ?_, ?_, ?_⟩
  · have hmb : maskBits ((1:ℕ) ^^^ 1 <<< (bit_length 1 - 1)) = [] := by decide
    simp only [pprCompute, hstdr, hstdt, hmb]
    norm_num
    intro h
    field_simp at h
    nlinarith
  · show Real.pi * ((1:ℤ):ℝ) / ((1:ℤ):ℝ) * (180 / Real.pi) = 180
    push_cast
    field_simp
  · show Real.pi * ((1:ℤ):ℝ) / ((1:ℤ):ℝ) ≠ 180
    push_cast
    simp only [mul_one, div_one]
    intro h
    nlinarith

/-- C4 amended: the synthesizer normalizes each of the three angle
shapes to one canonical *degree* value before any synthesis stage, and
two angle inputs denoting the same physical rotation yield the same
normalized angle provided every plain-number input has magnitude at
most 2π (plain numbers of larger magnitude are read as degrees by the
heuristic, not as the radians they may denote). -/
theorem angle_normalization_amended :
    (∀ t : Theta, thetaRawBounded t →
      standardizeAngle t = rad2deg (thetaDenotesRad t)) ∧
    (∀ t1 t2 : Theta, thetaRawBounded t1 → thetaRawBounded t2 →
      thetaDenotesRad t1 = thetaDenotesRad t2 →
      standardizeAngle t1 = standardizeAngle t2) := by
  have main : ∀ t : Theta, thetaRawBounded t →
      standardizeAngle t = rad2deg (thetaDenotesRad t) := by
    intro t ht
    cases t with
    | tagged r => rfl
    | frac a b => rfl
    | raw x =>
        have hx : |x| ≤ 2 * Real.pi := ht
        simp only [standardizeAngle, thetaDenotesRad]
        rw [if_neg (not_lt.mpr hx)]
  exact ⟨main, fun t1 t2 h1 h2 he => by rw [main t1 h1, main t2 h2, he]⟩

/-- Witness for the amended C4: the fraction-of-π inputs (1,2) and
(2,4) denote the same rotation and normalize identically. -/
theorem angle_normalization_amended_witness :
    standardizeAngle (Theta.frac 1 2) = standardizeAngle (Theta.frac 2 4) :=
  angle_normalization_amended.2 (Theta.frac 1 2) (Theta.frac 2 4)
    trivial trivial (by show Real.pi * _ / _ = Real.pi * _ / _; push_cast; ring)

/-! ### Trotter scheduler (`trotter/trotter.py`)

A Hamiltonian term is `(coefficient, PauliMask)`: `get_coefficient(i)`
is the first component and `get_mask(i)` the second, with
`mask[0] = x_mask` and `mask[1] = z_mask`. -/

/-- The term predicate used by the skip test `x_mask | z_mask == 0`:
`true` exactly on non-identity terms. -/
def nonIdentity (term : ℝ × PauliMask) : Bool :=
  term.2.x ||| term.2.z != 0

/-- Embedding of `apply_hamiltonian_as_pprs` (trotter.py): iterate the
terms in list order, skip identity terms, and invoke the PPR
synthesizer with `theta = coeff * time_step` on the rest; the result
is the concatenated gate trace. -/
noncomputable def apply_hamiltonian_as_pprs
    (H : List (ℝ × PauliMask)) (time_step : ℝ) : List Gate :=
  H.flatMap fun term =>
    if term.2.x ||| term.2.z = 0 then []
    else pprCompute (Theta.raw (term.1 * time_step)) term.2.x term.2.z

/-- Embedding of `apply_hamiltonian_as_pprs_reversed` (trotter.py):
the same body iterated over `range(len(hamiltonian) - 1, -1, -1)`,
i.e. over the terms in reverse list order. -/
noncomputable def apply_hamiltonian_as_pprs_reversed
    (H : List (ℝ × PauliMask)) (time_step : ℝ) : List Gate :=
  H.reverse.flatMap fun term =>
    if term.2.x ||| term.2.z = 0 then []
    else pprCompute (Theta.raw (term.1 * time_step)) term.2.x term.2.z

/-- `for _ in range(N): <emit block>`: the trace of repeating one
Trotter step's block N times. -/
def repeatSteps : ℕ → List Gate → List Gate
  | 0, _ => []
  | n + 1, block => block ++ repeatSteps n block

/-- Embedding of `first_order_trotter`: `dt = time / N`, then N
forward passes. -/
noncomputable def first_order_trotter
    (H : List (ℝ × PauliMask)) (time : ℝ) (N : ℕ) : List Gate :=
  repeatSteps N (apply_hamiltonian_as_pprs H (time / N))

/-- Embedding of `second_order_trotter`: `dt = time / (2 * N)`, then N
repetitions of a forward pass immediately followed by a backward
pass. -/
noncomputable def second_order_trotter
    (H : List (ℝ × PauliMask)) (time : ℝ) (N : ℕ) : List Gate :=
  repeatSteps N
    (apply_hamiltonian_as_pprs H (time / (2 * N)) ++
     apply_hamiltonian_as_pprs_reversed H (time / (2 * N)))

/-- Embedding of `trotter_evolution`: dispatch on `order`, raising
`ValueError("Order must be 1 or 2, got {order}")` otherwise.  An
`error` result issues no gate operation against the register. -/
noncomputable def trotter_evolution
    (H : List (ℝ × PauliMask)) (time : ℝ) (N : ℕ) (order : ℤ) :
    Except String (List Gate) :=
  if order = 1 then .ok (first_order_trotter H time N)
  else if order = 2 then .ok (second_order_trotter H time N)
  else .error "Order must be 1 or 2"

/-- The pass body shared by both Trotter passes, skipping identity
terms commutes with pre-filtering the identity terms away. -/
theorem pass_filter_eq (H : List (ℝ × PauliMask)) (dt : ℝ) :
    apply_hamiltonian_as_pprs H dt =
      apply_hamiltonian_as_pprs (H.filter nonIdentity) dt := by
  induction H with
  | nil => rfl
  | cons term rest ih =>
      by_cases h : term.2.x ||| term.2.z = 0
      · have hb : nonIdentity term = false := by
          simp [nonIdentity, h]
        simp [apply_hamiltonian_as_pprs, List.filter_cons, hb, h] at ih ⊢
        exact ih
      · have hb : nonIdentity term = true := by
          simp [nonIdentity, h]
        simp [apply_hamiltonian_as_pprs, List.filter_cons, hb, h] at ih ⊢
        exact ih

/-- C6: a pure-identity term (x_mask = z_mask = 0) never reaches the
register: the PPR synthesizer itself returns without issuing a gate,
and each Trotter pass produces the same trace as the pass over the
Hamiltonian with all identity terms removed. -/
theorem identity_terms_skipped :
    (∀ theta : Theta, pprCompute theta 0 0 = []) ∧
    (∀ (H : List (ℝ × PauliMask)) (dt : ℝ),
      apply_hamiltonian_as_pprs H dt =
        apply_hamiltonian_as_pprs (H.filter nonIdentity) dt) ∧
    (∀ (H : List (ℝ × PauliMask)) (dt : ℝ),
      apply_hamiltonian_as_pprs_reversed H dt =
        apply_hamiltonian_as_pprs_reversed (H.filter nonIdentity) dt) := by
  refine ⟨fun theta => rfl, pass_filter_eq, fun H dt => ?_⟩
  have h1 : apply_hamiltonian_as_pprs_reversed H dt =
      apply_hamiltonian_as_pprs H.reverse dt := rfl
  have h2 : apply_hamiltonian_as_pprs_reversed (H.filter nonIdentity) dt =
      apply_hamiltonian_as_pprs ((H.filter nonIdentity).reverse) dt := rfl
  rw [h1, h2, pass_filter_eq, ← List.filter_reverse, ← pass_filter_eq]

/-- C7: the second-order scheduler repeats N times a forward pass
followed by a backward pass, both at dt = t/(2N); the forward pass
invokes the PPR synthesizer on exactly the non-identity terms in list
order with angle coeff·dt, the backward pass on the same terms in
exact reverse list order. -/
theorem second_order_structure :
    (∀ (H : List (ℝ × PauliMask)) (t : ℝ) (N : ℕ),
      second_order_trotter H t N =
        (List.replicate N
          (apply_hamiltonian_as_pprs H (t / (2 * N)) ++
           apply_hamiltonian_as_pprs_reversed H (t / (2 * N)))).flatten) ∧
    (∀ (H : List (ℝ × PauliMask)) (dt : ℝ),
      apply_hamiltonian_as_pprs H dt =
        (H.filter nonIdentity).flatMap fun term =>
          pprCompute (Theta.raw (term.1 * dt)) term.2.x term.2.z) ∧
    (∀ (H : List (ℝ × PauliMask)) (dt : ℝ),
      apply_hamiltonian_as_pprs_reversed H dt =
        ((H.filter nonIdentity).reverse).flatMap fun term =>
          pprCompute (Theta.raw (term.1 * dt)) term.2.x term.2.z) := by
  have hrep : ∀ (n : ℕ) (L : List Gate),
      repeatSteps n L = (List.replicate n L).flatten := by
    intro n L
    induction n with
    | zero => rfl
    | succ k ih => simp [repeatSteps, List.replicate_succ, ih]
  have hfwd : ∀ (H : List (ℝ × PauliMask)) (dt : ℝ),
      apply_hamiltonian_as_pprs H dt =
        (H.filter nonIdentity).flatMap fun term =>
          pprCompute (Theta.raw (term.1 * dt)) term.2.x term.2.z := by
    intro H dt
    induction H with
    | nil => rfl
    | cons term rest ih =>
        by_cases h : term.2.x ||| term.2.z = 0
        · have hb : nonIdentity term = false := by simp [nonIdentity, h]
          simp [apply_hamiltonian_as_pprs, List.filter_cons, hb, h] at ih ⊢
          exact ih
        · have hb : nonIdentity term = true := by simp [nonIdentity, h]
          simp [apply_hamiltonian_as_pprs, List.filter_cons, hb, h] at ih ⊢
          exact ih
  refine ⟨fun H t N => hrep N _, hfwd, fun H dt => ?_⟩
  have h1 : apply_hamiltonian_as_pprs_reversed H dt =
      apply_hamiltonian_as_pprs H.reverse dt := rfl
  rw [h1, hfwd, List.filter_reverse]

/-- C8: `trotter_evolution` on an order other than 1 or 2 fails with
the named ValueError and issues no gates; on order 1 or 2 it does not
fail and dispatches to the first- or second-order scheme. -/
theorem trotter_dispatch (H : List (ℝ × PauliMask)) (t : ℝ) (N : ℕ)
    (order : ℤ) :
    (order ≠ 1 → order ≠ 2 →
      trotter_evolution H t N order = .error "Order must be 1 or 2") ∧
    trotter_evolution H t N 1 = .ok (first_order_trotter H t N) ∧
    trotter_evolution H t N 2 = .ok (second_order_trotter H t N) := by
  refine ⟨fun h1 h2 => ?_, ?_, ?_⟩
  · rw [trotter_evolution, if_neg h1, if_neg h2]
  · rw [trotter_evolution, if_pos rfl]
  · rw [trotter_evolution, if_neg (by decide), if_pos rfl]

/-- Witness for C8 at order = 3 on the empty Hamiltonian. -/
theorem trotter_dispatch_witness :
    trotter_evolution [] 1 1 3 = .error "Order must be 1 or 2" ∧
    trotter_evolution [] 1 1 1 = .ok (first_order_trotter [] 1 1) ∧
    trotter_evolution [] 1 1 2 = .ok (second_order_trotter [] 1 1) :=
  ⟨(trotter_dispatch [] 1 1 3).1 (by decide) (by decide),
   (trotter_dispatch [] 1 1 1).2.1, (trotter_dispatch [] 1 1 2).2.2⟩

/-! ### Pauli-string codec (`ppr_utils.py`, `pauli_string_to_masks`)

Text is modelled as its character sequence.  Python exceptions
(`int()` on a non-integer, `1 << negative`) are modelled as `none`;
on `none` nothing is returned at all, so a "partially built" pair can
only ever be observed through a `some` result. -/

/-- Scanner for `splitWs`: `acc` holds the characters of the current
token in reverse; any whitespace character closes the token, the end
of the text closes a last nonempty token. -/
def splitWsAux : List Char → List Char → List (List Char)
  | [], acc => if acc.isEmpty then [] else [acc.reverse]
  | c :: rest, acc =>
      if c.isWhitespace then
        if acc.isEmpty then splitWsAux rest []
        else acc.reverse :: splitWsAux rest []
      else splitWsAux rest (c :: acc)

/-- `pauli_string.strip().split()`: the maximal runs of non-whitespace
characters, in order (Python's argumentless `split` separates on runs
of any whitespace, not only spaces). -/
def splitWs (l : List Char) : List (List Char) := splitWsAux l []

/-- The numeric value of a decimal digit character, `none`
otherwise. -/
def digitVal (c : Char) : Option ℕ :=
  if '0' ≤ c ∧ c ≤ '9' then some (c.toNat - '0'.toNat) else none

/-- Digits after the first one: Python's `int()` accepts a single
underscore between two digits (`int("1_0") = 10`) but rejects a
doubled, leading or trailing underscore. -/
def parseDigitsAux : List Char → ℕ → Option ℕ
  | [], acc => some acc
  | ['_'], _ => none
  | '_' :: c :: rest, acc => do
      let d ← digitVal c
      parseDigitsAux rest (acc * 10 + d)
  | c :: rest, acc => do
      let d ← digitVal c
      parseDigitsAux rest (acc * 10 + d)

/-- An unsigned digit group: at least one digit, with underscores
allowed only between digits. -/
def parseDigits : List Char → Option ℕ
  | [] => none
  | c :: rest => do
      let d ← digitVal c
      parseDigitsAux rest d

/-- Python's `int(text)` on the index part of a token: surrounding
whitespace is ignored, then an optional sign directly followed by a
digit group; anything else raises `ValueError`, modelled as `none`. -/
def parseInt (cs : List Char) : Option ℤ :=
  let t := ((cs.dropWhile Char.isWhitespace).reverse.dropWhile
    Char.isWhitespace).reverse
  match t with
  | '-' :: rest => (parseDigits rest).map (fun n => -(n : ℤ))
  | '+' :: rest => (parseDigits rest).map (fun n => (n : ℤ))
  | _ => (parseDigits t).map (fun n => (n : ℤ))

/-- One iteration of the sparse-format loop: `pauli = part[0]`,
`qubit_idx = int(part[1:])`; X and Y set the x bit, Z and Y set the z
bit, any other letter changes nothing.  A non-integer index raises in
`int()` before any letter test; a negative index raises in
`1 << qubit_idx`, which runs only inside the matching X/Y or Z/Y
branch, so a token with an unknown letter never reaches the shift and
is skipped even when its index is negative. -/
def processToken (acc : ℕ × ℕ) (part : List Char) : Option (ℕ × ℕ) := do
  let pauli := part.headD ' '
  let idx ← parseInt (part.drop 1)
  let x ←
    if pauli = 'X' ∨ pauli = 'Y' then
      if idx < 0 then none else some (acc.1 ||| (1 <<< idx.toNat))
    else some acc.1
  let z ←
    if pauli = 'Z' ∨ pauli = 'Y' then
      if idx < 0 then none else some (acc.2 ||| (1 <<< idx.toNat))
    else some acc.2
  pure (x, z)

/-- One iteration of the dense-format loop over
`enumerate(reversed(pauli_string))`: position from the right is the
qubit index; characters outside {X, Y, Z} (including I) change
nothing and never fail. -/
def processDenseChar (acc : ℕ × ℕ) (ip : ℕ × Char) : ℕ × ℕ :=
  let i := ip.1
  let pauli := ip.2
  let x := if pauli = 'X' ∨ pauli = 'Y' then acc.1 ||| (1 <<< i) else acc.1
  let z := if pauli = 'Z' ∨ pauli = 'Y' then acc.2 ||| (1 <<< i) else acc.2
  (x, z)

/-- Embedding of `pauli_string_to_masks(pauli_string)`: sparse format
when the text contains a space, dense format otherwise. -/
def pauli_string_to_masks (s : String) : Option (ℕ × ℕ) :=
  if s.toList.contains ' ' then
    (splitWs s.toList).foldlM processToken (0, 0)
  else
    some ((s.toList.reverse.enum).foldl processDenseChar (0, 0))

/-- A sparse token on which the loop body raises: its index part is
not an integer, or its letter is X, Y or Z and the index is negative
(only then does `1 << idx` run, and raise). -/
def tokenFails (part : List Char) : Bool :=
  match parseInt (part.drop 1) with
  | none => true
  | some k =>
      decide (k < 0) &&
        (part.headD ' ' == 'X' || part.headD ' ' == 'Y' ||
         part.headD ' ' == 'Z')

/-- A failing token aborts the sparse loop whatever the masks built so
far. -/
theorem processToken_fails (part : List Char) (h : tokenFails part = true) :
    ∀ acc, processToken acc part = none := by
  intro acc
  cases hp : parseInt part.tail with
  | none =>
      simp only [processToken, List.drop_one, hp, Option.bind_eq_bind,
        Option.none_bind]
  | some k =>
      rw [tokenFails, List.drop_one, hp] at h
      simp only [Bool.and_eq_true, Bool.or_eq_true, beq_iff_eq,
        decide_eq_true_eq] at h
      obtain ⟨hk, hletter⟩ := h
      rcases hletter with (hX | hY) | hZ
      · simp only [processToken, List.drop_one, hp, Option.bind_eq_bind,
          Option.some_bind,
          if_pos (Or.inl hX : part.headD ' ' = 'X' ∨ part.headD ' ' = 'Y'),
          if_pos hk, Option.none_bind]
      · simp only [processToken, List.drop_one, hp, Option.bind_eq_bind,
          Option.some_bind,
          if_pos (Or.inr hY : part.headD ' ' = 'X' ∨ part.headD ' ' = 'Y'),
          if_pos hk, Option.none_bind]
      · have hxF : ¬(part.headD ' ' = 'X' ∨ part.headD ' ' = 'Y') := by
          rw [hZ]
          decide
        simp only [processToken, List.drop_one, hp, Option.bind_eq_bind,
          Option.some_bind, if_neg hxF,
          if_pos (Or.inl hZ : part.headD ' ' = 'Z' ∨ part.headD ' ' = 'Y'),
          if_pos hk, Option.none_bind]

/-- A failing token anywhere in the token list makes the whole sparse
fold fail. -/
theorem foldlM_token_fails :
    ∀ (l : List (List Char)) (acc : ℕ × ℕ),
      (∃ part ∈ l, tokenFails part = true) →
      l.foldlM processToken acc = none := by
  intro l
  induction l with
  | nil => intro acc h; simp at h
  | cons a rest ih =>
      intro acc h
      rcases h with ⟨part, hmem, hf⟩
      rcases List.mem_cons.mp hmem with rfl | hmem2
      · rw [List.foldlM_cons, processToken_fails part hf acc]
        rfl
      · rw [List.foldlM_cons]
        cases hp : processToken acc a with
        | none => rfl
        | some acc2 =>
            simp only [Option.bind_eq_bind, Option.some_bind]
            exact ih acc2 ⟨part, hmem2, hf⟩

/-- C9 counterexample: the strings "A0 X1" and "A-3 X1" are malformed
(their first token carries the unknown letter A, the second one even a
negative index), yet the codec does not fail on either: it returns
masks that silently treat the A token as identity. -/
theorem codec_unknown_letter_counterexample :
    pauli_string_to_masks "A0 X1" = some (2, 0) ∧
    pauli_string_to_masks "A-3 X1" = some (2, 0) ∧
    ¬('A' = 'X' ∨ 'A' = 'Y' ∨ 'A' = 'Z' ∨ 'A' = 'I') := by
  refine ⟨?_, ?_, ?_⟩
  · decide
  · decide
  · decide

/-- C9 amended: a sparse-format token whose index part is not an
integer makes the whole parse fail, as does a negative index on a
token whose letter is X, Y or Z (only there does the shift run, and
raise); since failure aborts the call, no mask pair at all is
returned.  But unknown letters never cause a parse failure: a token
with an unknown letter and any integer index — negative included — is
silently treated as identity, and the dense format never fails on any
character. -/
theorem codec_failure_behavior :
    (∀ s : String, s.toList.contains ' ' = true →
      (∃ part ∈ splitWs s.toList, tokenFails part = true) →
      pauli_string_to_masks s = none) ∧
    (∀ s : String, s.toList.contains ' ' = false →
      ∃ v, pauli_string_to_masks s = some v) ∧
    (∀ (acc : ℕ × ℕ) (part : List Char) (k : ℤ),
      ¬(part.headD ' ' = 'X' ∨ part.headD ' ' = 'Y' ∨ part.headD ' ' = 'Z') →
      parseInt (part.drop 1) = some k →
      processToken acc part = some acc) := by
  refine ⟨fun s hsp hex => ?_, fun s hsp => ?_,
    fun acc part k hletter hp => ?_⟩
  · rw [pauli_string_to_masks, if_pos hsp]
    exact foldlM_token_fails _ _ hex
  · rw [pauli_string_to_masks, if_neg (by rw [hsp]; exact Bool.false_ne_true)]
    exact ⟨_, rfl⟩
  · have hx : ¬(part.headD ' ' = 'X' ∨ part.headD ' ' = 'Y') := by tauto
    have hz : ¬(part.headD ' ' = 'Z' ∨ part.headD ' ' = 'Y') := by tauto
    simp only [processToken, hp, Option.bind_eq_bind, Option.some_bind,
      if_neg hx, if_neg hz]
    rfl

/-- Witness for the amended C9: "X0 YQ" fails to parse (the second
token's index part Q is not an integer), and the unknown-letter token
A-3 is skipped without touching the accumulated masks, its negative
index notwithstanding. -/
theorem codec_failure_behavior_witness :
    pauli_string_to_masks "X0 YQ" = none ∧
    processToken (0, 0) ['A', '-', '3'] = some (0, 0) :=
  ⟨codec_failure_behavior.1 "X0 YQ" (by decide)
      ⟨['Y', 'Q'], by decide, by decide⟩,
   codec_failure_behavior.2.2 (0, 0) ['A', '-', '3'] (-3)
     (by decide) (by decide)⟩

/-! ### Hamiltonian builder (`jw_transform/hamiltonian.py`, `SYK_hamil`) -/

/-- A flatMap is the flattening of the mapped blocks. -/
theorem flatMap_eq_flatten_map {α β : Type} (f : α → List β) (l : List α) :
    l.flatMap f = (l.map f).flatten := by
  induction l with
  | nil => rfl
  | cons a r ih => rw [List.flatMap_cons, List.map_cons, List.flatten_cons, ih]

/-- Embedding of `itertools.combinations(range(m), k)`, generalized to
a lower bound `s`: the strictly increasing k-tuples with entries in
[s, m), enumerated in lexicographic order. -/
def incTuples : ℕ → ℕ → ℕ → List (List ℕ)
  | 0, _, _ => [[]]
  | k + 1, s, m =>
      (List.range' s (m - s)).flatMap fun a =>
        (incTuples k (a + 1) m).map (fun t => a :: t)

/-- Hockey-stick summation giving the combination count. -/
theorem sum_choose_aux (k : ℕ) : ∀ (t s : ℕ),
    ((List.range' s t).map (fun a => (s + t - (a + 1)).choose k)).sum
      = t.choose (k + 1) := by
  intro t
  induction t with
  | zero =>
      intro s
      simp [Nat.choose_eq_zero_of_lt (Nat.succ_pos k)]
  | succ t ih =>
      intro s
      rw [List.range'_succ s t 1]
      simp only [List.map_cons, List.sum_cons]
      have h1 : s + (t + 1) - (s + 1) = t := by omega
      have h2 : ((List.range' (s + 1) t).map
            (fun a => (s + (t + 1) - (a + 1)).choose k)).sum
          = ((List.range' (s + 1) t).map
            (fun a => (s + 1 + t - (a + 1)).choose k)).sum := by
        congr 1
        apply List.map_congr_left
        intro a ha
        congr 1
        omega
      rw [h1, h2, ih (s + 1), Nat.choose_succ_succ]

/-- The enumeration has exactly `choose (m - s) k` entries. -/
theorem incTuples_length (k : ℕ) : ∀ s m : ℕ,
    (incTuples k s m).length = (m - s).choose k := by
  induction k with
  | zero => intro s m; rw [incTuples]; simp
  | succ k ih =>
      intro s m
      rw [incTuples, List.length_flatMap]
      simp only [Function.comp_def]
      have hfun : ∀ a ∈ List.range' s (m - s),
          ((incTuples k (a + 1) m).map (fun t => a :: t)).length
            = (m - (a + 1)).choose k := by
        intro a ha
        rw [List.length_map, ih]
      rw [List.map_congr_left hfun]
      rcases le_or_lt s m with hsm | hsm
      · have h2 : (List.range' s (m - s)).map (fun a => (m - (a + 1)).choose k)
            = (List.range' s (m - s)).map
              (fun a => (s + (m - s) - (a + 1)).choose k) := by
          apply List.map_congr_left
          intro a ha
          congr 2
          omega
        rw [h2, sum_choose_aux]
      · have h0 : m - s = 0 := by omega
        rw [h0]
        simp [Nat.choose_eq_zero_of_lt (Nat.succ_pos k)]

/-- The enumeration holds exactly the strictly increasing k-tuples
over [s, m). -/
theorem incTuples_mem (k : ℕ) : ∀ (s m : ℕ) (l : List ℕ),
    l ∈ incTuples k s m ↔
      l.length = k ∧ l.Pairwise (· < ·) ∧ ∀ x ∈ l, s ≤ x ∧ x < m := by
  induction k with
  | zero =>
      intro s m l
      constructor
      · intro h
        rw [incTuples, List.mem_singleton] at h
        subst h
        simp
      · rintro ⟨h, -, -⟩
        rw [incTuples, List.mem_singleton]
        exact List.length_eq_zero.mp h
  | succ k ih =>
      intro s m l
      rw [incTuples]
      simp only [List.mem_flatMap, List.mem_map]
      constructor
      · rintro ⟨a, ha, t, ht, rfl⟩
        rw [List.mem_range'_1] at ha
        obtain ⟨hlen, hpw, hbd⟩ := (ih (a + 1) m t).mp ht
        refine ⟨by simp [hlen], ?_, ?_⟩
        · rw [List.pairwise_cons]
          exact ⟨fun x hx => by have := (hbd x hx).1; omega, hpw⟩
        · intro x hx
          rcases List.mem_cons.mp hx with rfl | hx2
          · constructor
            · exact ha.1
            · have := ha.2
              omega
          · have := hbd x hx2
            constructor <;> omega
      · rintro ⟨hlen, hpw, hbd⟩
        cases l with
        | nil => simp at hlen
        | cons a t =>
            obtain ⟨hat, hpt⟩ := List.pairwise_cons.mp hpw
            have hba := hbd a (List.mem_cons_self a t)
            refine ⟨a, ?_, t, (ih (a + 1) m t).mpr
              ⟨by simpa using hlen, hpt, ?_⟩, rfl⟩
            · rw [List.mem_range'_1]
              refine ⟨hba.1, ?_⟩
              have := hba.2
              omega
            · intro x hx
              have h1 := hat x hx
              have h2 := hbd x (List.mem_cons_of_mem a hx)
              exact ⟨by omega, h2.2⟩

/-- The enumeration is strictly lexicographically sorted (so it has no
duplicate tuples and its order is the lexicographic one). -/
theorem incTuples_sorted (k : ℕ) : ∀ s m : ℕ,
    (incTuples k s m).Pairwise (fun l1 l2 => List.Lex (· < ·) l1 l2) := by
  induction k with
  | zero => intro s m; rw [incTuples]; exact List.pairwise_singleton _ _
  | succ k ih =>
      intro s m
      rw [incTuples, flatMap_eq_flatten_map, List.pairwise_flatten]
      constructor
      · intro blk hblk
        rw [List.mem_map] at hblk
        obtain ⟨a, -, rfl⟩ := hblk
        exact (ih (a + 1) m).map _ (fun t1 t2 h => List.Lex.cons h)
      · rw [List.pairwise_map]
        have hpw : (List.range' s (m - s)).Pairwise (· < ·) := by
          have := List.pairwise_lt_range' s (m - s) 1
          simpa using this
        refine hpw.imp ?_
        intro a b hab x hx y hy
        rw [List.mem_map] at hx hy
        obtain ⟨t1, -, rfl⟩ := hx
        obtain ⟨t2, -, rfl⟩ := hy
        exact List.Lex.rel hab

/-- The scaled coupling constant `np.sqrt(6/(2*n)**3)*J*24`
(hamiltonian.py line 68): the standard deviation handed to
`np.random.normal` when coefficients are drawn. -/
noncomputable def SYK_scale (n : ℕ) (J : ℝ) : ℝ :=
  Real.sqrt (6 / (2 * (n : ℝ)) ^ 3) * J * 24

/-- The coefficient of term `ind`: `coefs[ind]` when `coefs` is truthy
(Python's `if coefs:` is false both for `None` and for the empty
list), otherwise the next zero-mean normal draw of standard deviation
`scale`, modelled by an abstract stream `draw scale ind` of the values
`np.random.normal(loc=0, scale=scale, size=1)[0]` produces.  A missing
`coefs[ind]` raises IndexError, modelled as `none`. -/
noncomputable def drawOrSupplied (coefs : Option (List ℝ))
    (draw : ℝ → ℕ → ℝ) (scale : ℝ) (ind : ℕ) : Option ℝ :=
  match coefs with
  | some cs => if !cs.isEmpty then cs[ind]? else some (draw scale ind)
  | none => some (draw scale ind)

/-- The term appended for one quadruple `tup`:
`[1/(96)*coef*np.real(pauli_op1[0]*pauli_op2[0]),
pauli_op1[1]*pauli_op2[1]]`, where `pauli_op1` is the pair operator of
`(tup[0], tup[1])` and `pauli_op2` that of `(tup[2], tup[3])`. -/
noncomputable def mkTerm (coef : ℝ) (tup : List ℕ) : ℝ × PauliMask :=
  let pauli_op1 := SYK_pair_to_mask (tup.getD 0 0) (tup.getD 1 0)
  let pauli_op2 := SYK_pair_to_mask (tup.getD 2 0) (tup.getD 3 0)
  (1 / 96 * coef * ((gaussMul pauli_op1.1 pauli_op2.1).1 : ℝ),
   pmMul pauli_op1.2 pauli_op2.2)

/-- The loop of `SYK_hamil` over the enumerated quadruples, appending
one term per quadruple in enumeration order; a raised IndexError
aborts the whole call (`none`). -/
noncomputable def buildTerms (coefs : Option (List ℝ))
    (draw : ℝ → ℕ → ℝ) (scale : ℝ) :
    ℕ → List (List ℕ) → Option (List (ℝ × PauliMask))
  | _, [] => some []
  | ind, tup :: rest => do
      let coef ← drawOrSupplied coefs draw scale ind
      let rest' ← buildTerms coefs draw scale (ind + 1) rest
      some (mkTerm coef tup :: rest')

/-- Embedding of `SYK_hamil(n, J, coefs, random_seed)`: one term per
element of `combinations(range(2*n), 4)`, in enumeration order. -/
noncomputable def SYK_hamil (n : ℕ) (J : ℝ) (coefs : Option (List ℝ))
    (draw : ℝ → ℕ → ℝ) : Option (List (ℝ × PauliMask)) :=
  buildTerms coefs draw (SYK_scale n J) 0 (incTuples 4 0 (2 * n))

/-- Shape of every successful `buildTerms` run: one term per tuple, in
order, built from the supplied-or-drawn coefficient stream. -/
theorem buildTerms_spec (coefs : Option (List ℝ)) (draw : ℝ → ℕ → ℝ)
    (scale : ℝ) :
    ∀ (tuples : List (List ℕ)) (ind : ℕ) (terms : List (ℝ × PauliMask)),
      buildTerms coefs draw scale ind tuples = some terms →
      terms.length = tuples.length ∧
      ∀ i, i < terms.length →
        ∃ v, drawOrSupplied coefs draw scale (ind + i) = some v ∧
          terms.getD i (0, ⟨0, 0⟩) = mkTerm v (tuples.getD i []) := by
  intro tuples
  induction tuples with
  | nil =>
      intro ind terms h
      simp only [buildTerms, Option.some.injEq] at h
      subst h
      exact ⟨rfl, fun i hi => absurd hi (by simp)⟩
  | cons tup rest ih =>
      intro ind terms h
      rw [buildTerms] at h
      cases hd : drawOrSupplied coefs draw scale ind with
      | none => rw [hd] at h; simp at h
      | some v =>
          rw [hd] at h
          cases hr : buildTerms coefs draw scale (ind + 1) rest with
          | none => rw [hr] at h; simp at h
          | some rest' =>
              rw [hr] at h
              simp only [Option.bind_eq_bind, Option.some_bind,
                Option.some.injEq] at h
              subst h
              obtain ⟨hlen, hspec⟩ := ih (ind + 1) rest' hr
              refine ⟨by simp [hlen], ?_⟩
              intro i hi
              cases i with
              | zero => exact ⟨v, by simpa using hd, rfl⟩
              | succ j =>
                  have hj : j < rest'.length := by
                    simp at hi
                    omega
                  obtain ⟨w, hw1, hw2⟩ := hspec j hj
                  refine ⟨w, ?_, ?_⟩
                  · have harith : ind + (j + 1) = ind + 1 + j := by omega
                    rw [harith]
                    exact hw1
                  · simpa using hw2

/-- When every coefficient lookup succeeds, the builder never
fails. -/
theorem buildTerms_total (coefs : Option (List ℝ)) (draw : ℝ → ℕ → ℝ)
    (scale : ℝ)
    (hs : ∀ ind, ∃ v, drawOrSupplied coefs draw scale ind = some v) :
    ∀ (tuples : List (List ℕ)) (ind : ℕ),
      ∃ terms, buildTerms coefs draw scale ind tuples = some terms := by
  intro tuples
  induction tuples with
  | nil => intro ind; exact ⟨[], rfl⟩
  | cons tup rest ih =>
      intro ind
      obtain ⟨v, hv⟩ := hs ind
      obtain ⟨ts, hts⟩ := ih (ind + 1)
      refine ⟨mkTerm v tup :: ts, ?_⟩
      rw [buildTerms, hv, hts]
      rfl

/-- An empty coefficient list is falsy, so the builder behaves as if
no coefficients were supplied. -/
theorem buildTerms_empty_coefs (draw : ℝ → ℕ → ℝ) (scale : ℝ) :
    ∀ (tuples : List (List ℕ)) (ind : ℕ),
      buildTerms (some []) draw scale ind tuples =
        buildTerms none draw scale ind tuples := by
  intro tuples
  induction tuples with
  | nil => intro ind; rfl
  | cons tup rest ih =>
      intro ind
      simp only [buildTerms, ih]
      rfl

/-- C3: a successful `SYK_hamil` run yields exactly C(2n,4) terms, one
per strictly increasing 4-tuple over [0, 2n), with the tuples
enumerated in strict lexicographic order; term i is `mkTerm` of the
supplied-or-drawn value and the i-th tuple, i.e. its mask is the
Pauli-operator product of the two pair masks and its coefficient is
(1/96) · value · Re(phase1 · phase2). -/
theorem SYK_hamil_spec (n : ℕ) (J : ℝ) (coefs : Option (List ℝ))
    (draw : ℝ → ℕ → ℝ) (terms : List (ℝ × PauliMask))
    (h : SYK_hamil n J coefs draw = some terms) :
    terms.length = Nat.choose (2 * n) 4 ∧
    (∀ l, l ∈ incTuples 4 0 (2 * n) ↔
      l.length = 4 ∧ l.Pairwise (· < ·) ∧ ∀ x ∈ l, x < 2 * n) ∧
    (incTuples 4 0 (2 * n)).Pairwise (fun l1 l2 => List.Lex (· < ·) l1 l2) ∧
    (∀ i, i < terms.length →
      ∃ v, drawOrSupplied coefs draw (SYK_scale n J) i = some v ∧
        terms.getD i (0, ⟨0, 0⟩) =
          mkTerm v ((incTuples 4 0 (2 * n)).getD i [])) := by
  obtain ⟨hlen, hspec⟩ :=
    buildTerms_spec coefs draw (SYK_scale n J) (incTuples 4 0 (2 * n)) 0 terms h
  refine ⟨?_, ?_, incTuples_sorted 4 0 (2 * n), ?_⟩
  · rw [hlen, incTuples_length]
    norm_num
  · intro l
    rw [incTuples_mem]
    constructor
    · rintro ⟨h1, h2, h3⟩
      exact ⟨h1, h2, fun x hx => (h3 x hx).2⟩
    · rintro ⟨h1, h2, h3⟩
      exact ⟨h1, h2, fun x hx => ⟨Nat.zero_le x, h3 x hx⟩⟩
  · intro i hi
    have := hspec i hi
    simp only [Nat.zero_add] at this
    exact this

/-- Witness for C3: n = 2 with the supplied list [96] gives the single
term for the quadruple (0,1,2,3). -/
theorem SYK_hamil_spec_witness :
    SYK_hamil 2 1 (some [96]) (fun _ _ => 0) = some [mkTerm 96 [0, 1, 2, 3]] ∧
    [mkTerm (96 : ℝ) [0, 1, 2, 3]].length = Nat.choose 4 4 := by
  have hinc : incTuples 4 0 4 = [[0, 1, 2, 3]] := by decide
  have h : SYK_hamil 2 1 (some [96]) (fun _ _ => 0)
      = some [mkTerm 96 [0, 1, 2, 3]] := by
    rw [SYK_hamil]
    norm_num [hinc]
    rw [buildTerms]
    rfl
  refine ⟨h, ?_⟩
  have hlen := (SYK_hamil_spec 2 1 (some [96]) (fun _ _ => 0)
    [mkTerm 96 [0, 1, 2, 3]] h).1
  simp only [show 2 * 2 = 4 from rfl] at hlen
  exact hlen

/-- C10: calling `SYK_hamil` with an empty coefficient list behaves
exactly as if `coefs` had been omitted — no IndexError is raised, the
build succeeds, and every term coefficient is the next draw from the
normal stream whose standard deviation is `SYK_scale n J =
sqrt(6/(2n)³)·J·24`. -/
theorem SYK_hamil_empty_coefs (n : ℕ) (J : ℝ) (draw : ℝ → ℕ → ℝ) :
    SYK_hamil n J (some []) draw = SYK_hamil n J none draw ∧
    ∃ terms, SYK_hamil n J none draw = some terms ∧
      terms.length = Nat.choose (2 * n) 4 ∧
      ∀ i, i < terms.length →
        terms.getD i (0, ⟨0, 0⟩) =
          mkTerm (draw (SYK_scale n J) i)
            ((incTuples 4 0 (2 * n)).getD i []) := by
  constructor
  · rw [SYK_hamil, SYK_hamil]
    exact buildTerms_empty_coefs draw (SYK_scale n J) (incTuples 4 0 (2 * n)) 0
  · obtain ⟨terms, hterms⟩ := buildTerms_total none draw (SYK_scale n J)
      (fun ind => ⟨draw (SYK_scale n J) ind, rfl⟩) (incTuples 4 0 (2 * n)) 0
    obtain ⟨hlen, hspec⟩ :=
      buildTerms_spec none draw (SYK_scale n J) (incTuples 4 0 (2 * n)) 0
        terms hterms
    refine ⟨terms, hterms, ?_, ?_⟩
    · rw [hlen, incTuples_length]
      norm_num
    · intro i hi
      obtain ⟨v, hv1, hv2⟩ := hspec i hi
      rw [Nat.zero_add] at hv1
      have hv1' : some (draw (SYK_scale n J) i) = some v := hv1
      injection hv1' with hv
      rw [hv2, ← hv]

end SykSim
